import Mathlib

/-!
Verification of the stream-adapter layer of go-paulstretch (src/paulstretch.go).

The Go file wraps the external libpaulstretch engine behind a pipe-like
Reader/Writer/Closer interface.  We give a shallow embedding of its data
path and of the writer/reader/close synchronisation skeleton, and prove
the specified properties about it.

Bytes are modelled by an arbitrary type `α` (their values are opaque to the
adapter: it only copies them around).  The staging buffers of the Go struct
(`writeBuf`/`writeOff`, `readBuf`/`readOff`) are modelled by lists and
offsets; the external engine is modelled by the list of windows submitted
to it (write side) and by a FIFO queue of windows it has ready to emit
(read side), exactly the request/response contract described in the
package documentation.
-/

namespace GoPaulstretch

variable {α : Type}

/-- Error-like conditions surfaced by the Go code: `io.EOF`, the runtime
panic raised by `&s[0]` on an empty slice, and the runtime panic raised by
`close` of an already-closed channel. -/
inductive GoError
  | eof
  | indexOutOfRange
  | closeOfClosedChannel
deriving DecidableEq

/-! ## Write side (lines 92-132 of src/paulstretch.go)

`Write` copies the incoming bytes into the `writeBuf` staging buffer and,
each time a full window of `len(writeBuf)` bytes is available, submits one
window to the engine (`C.paulstretch_write`), after waiting for the single
`writePermit` token and re-checking `closed` under the lock.

We model the staging buffer by the list of its meaningful bytes
`pending = writeBuf[0:writeOff]` (the bytes past `writeOff` are never read
by the code before being overwritten).  `cap` is `len(writeBuf)`,
i.e. `windowSize * 4`.

The blocking receive on `writePermit` is modelled as eventually
succeeding; whether `closed` was found `true` when the call re-checks it
before its `j`-th window submission is modelled by the schedule parameter
`closeAt : Option Nat` (`some j` means: the adapter was closed between
this call's start and its `j`-th submission; `none` means: the adapter is
never closed during the call). -/

/-- Result of one `Write` call: bytes accepted `n`, the new contents of
the staging prefix `writeBuf[0:writeOff]`, the windows submitted to the
engine by this call in submission order, and whether `io.EOF` was
returned. -/
structure WriteResult (α : Type) where
  n : Nat
  pending : List α
  submitted : List (List α)
  eof : Bool
deriving DecidableEq

/-- The `for p.writeOff+len(data) >= len(p.writeBuf)` loop of `Write`
(lines 97-125).  One fuel unit per loop iteration; callers pass enough
fuel (the loop runs at most `(pending.length + data.length) / cap` times,
and `cap > 0` in any adapter built from a positive window size).

Loop body, mirrored branch by branch:
* `writeOff == 0`: the window passed to the engine is the first `cap`
  bytes of the caller's buffer (`buf = data`, the engine reads
  `len(writeBuf)/4` samples from `&buf[0]`), and `data = data[cap:]`;
* otherwise the window is `writeBuf[0:writeOff] ++ data[0:cap-writeOff]`
  (the `copy(buf[p.writeOff:], data)` fill), `data` advances by
  `cap - writeOff` and `writeOff` becomes 0;
* `c` is `cap - writeOff`, the number of this call's bytes consumed by
  the submission;
* after `<-p.writePermit`, if `closed` is observed `true` the call
  returns `(n, io.EOF)` without submitting (modelled by `closeAt = some 0`
  at that iteration);
* otherwise the window is submitted and `n += c`.
After the loop the leftover bytes are staged and counted (lines 126-130). -/
def writeGo (cap : Nat) : Nat → Option Nat → List α → List α → WriteResult α
  | 0, _, pending, data => ⟨data.length, pending ++ data, [], false⟩
  | fuel+1, closeAt, pending, data =>
    if cap ≤ pending.length + data.length then
      let c := cap - pending.length
      let window := if pending.length = 0 then data.take cap else pending ++ data.take c
      let rest := if pending.length = 0 then data.drop cap else data.drop c
      let pend1 := if pending.length = 0 then pending else ([] : List α)
      match closeAt with
      | some 0 => ⟨0, pend1, [], true⟩
      | _ =>
        let r := writeGo cap fuel (Option.map (fun j => j - 1) closeAt) [] rest
        ⟨c + r.n, r.pending, window :: r.submitted, r.eof⟩
    else
      ⟨data.length, pending ++ data, [], false⟩

/-- One `Write` call (lines 92-132).  `closed` is the value of `p.closed`
observed by the unlocked check at line 93; a close that lands in the
middle of the call is described by the `closeAt` schedule. -/
def Write (cap : Nat) (closed : Bool) (closeAt : Option Nat)
    (pending data : List α) : WriteResult α :=
  if closed then ⟨0, pending, [], true⟩
  else writeGo cap (pending.length + data.length) closeAt pending data

/-- A sequence of `Write` calls on a never-closed adapter, threading the
staging buffer through; returns the final staging prefix and all windows
submitted to the engine, in submission order. -/
def writeCalls (cap : Nat) : List α → List (List α) → List α × List (List α)
  | pending, [] => (pending, [])
  | pending, d :: ds =>
    let r := Write cap false none pending d
    let rest := writeCalls cap r.pending ds
    (rest.1, r.submitted ++ rest.2)

/-- `WriteSamples` (lines 138-147): reinterprets the float32 sample array
as bytes (4 bytes per sample, modelled by each sample being a 4-byte
list), calls `Write`, and divides the byte count by 4.  Building the
slice header takes `&samples[0]`, which panics (index out of range) on an
empty array. -/
def WriteSamples (cap : Nat) (closed : Bool) (closeAt : Option Nat)
    (pending : List α) (samples : List (List α)) :
    Except GoError (Nat × WriteResult α) :=
  match samples with
  | [] => .error .indexOutOfRange
  | _ :: _ =>
    let r := Write cap closed closeAt pending samples.flatten
    .ok (r.n / 4, r)

/-! ## Read side (lines 153-191 of src/paulstretch.go)

`Read` first drains the `readBuf` staging buffer (`readOff <
len(readBuf)`); then, for a non-empty destination, fetches one output
window from the engine (`C.paulstretch_read`), waiting on the condition
variable while none is available and the adapter is not closed, and
re-offering the single `writePermit` token before each wait.  The fetched
window is copied into the destination; an undelivered remainder is stored
in `readBuf` with `readOff` set to the delivered count. -/

/-- Reader-visible adapter state: the staging buffer `readBuf` with its
drain offset `readOff`, the FIFO queue of windows the engine has ready to
emit (in emission order), and the `closed` flag. -/
structure ReadState (α : Type) where
  readBuf : List α
  readOff : Nat
  engineOut : List (List α)
  closed : Bool
deriving DecidableEq

/-- Result of one `Read` call: the bytes copied into the destination,
whether `io.EOF` was returned, and the successor state. -/
structure ReadResult (α : Type) where
  out : List α
  eof : Bool
  state : ReadState α
deriving DecidableEq

/-- One `Read` call with a destination buffer of `k` bytes (lines
153-191).  Returns `none` when the call blocks forever (no window ever
becomes available and the adapter is never closed); branch by branch:
* lines 154-158: staged-output fast path, copies from `readBuf[readOff:]`;
* lines 159-161: zero-length destination returns `(0, nil)`;
* lines 162-177: fetch loop; with the engine modelled as a FIFO queue,
  availability is the queue being non-empty; when empty: `(0, io.EOF)` if
  closed, otherwise the call waits (modelled as `none`, since in this
  sequential model no writer will ever signal);
* lines 179-190: `n = copy(data, out)` copies `min k (len readBuf)` bytes
  of the fetched window; when `n < len(readBuf)` the remainder of the
  window is saved via `copy(p.readBuf[n:], out[n:])` and `readOff = n`. -/
def read (s : ReadState α) (k : Nat) : Option (ReadResult α) :=
  if s.readOff < s.readBuf.length then
    let out := (s.readBuf.drop s.readOff).take k
    some ⟨out, false, { s with readOff := s.readOff + out.length }⟩
  else if k = 0 then
    some ⟨[], false, s⟩
  else
    match s.engineOut with
    | [] => if s.closed then some ⟨[], true, s⟩ else none
    | w :: ws =>
      let n := min k s.readBuf.length
      let out := w.take n
      if n < s.readBuf.length then
        some ⟨out, false,
          { s with
            readBuf := s.readBuf.take n ++ (w.drop n).take (s.readBuf.length - n),
            readOff := n,
            engineOut := ws }⟩
      else
        some ⟨out, false, { s with engineOut := ws }⟩

/-- A sequence of `Read` calls with destination sizes `ks`, collecting the
returned byte chunks in order; a call that would block forever stops the
sequence. -/
def readMany : ReadState α → List Nat → List (List α) × ReadState α
  | s, [] => ([], s)
  | s, k :: ks =>
    match read s k with
    | none => ([], s)
    | some r =>
      let rest := readMany r.state ks
      (r.out :: rest.1, rest.2)

/-- The bytes the reader can still obtain from state `s`: the undrained
staging bytes followed by the queued engine windows. -/
def remaining (s : ReadState α) : List α :=
  s.readBuf.drop s.readOff ++ s.engineOut.flatten

/-- Well-formedness of a reader state for an adapter with window byte
size `cap`: `readBuf` has exactly `cap` bytes (allocated once at
construction), the drain offset is within bounds, and every window the
engine emits has exactly `cap` bytes (the engine contract). -/
def ReadWF (cap : Nat) (s : ReadState α) : Prop :=
  s.readBuf.length = cap ∧ s.readOff ≤ cap ∧ ∀ w ∈ s.engineOut, w.length = cap

/-- `ReadSamples` (lines 197-206): reinterprets a float32 sample array of
`numSamples` samples as a `numSamples * 4`-byte destination, calls `Read`,
and divides the byte count by 4.  Building the slice header takes
`&samples[0]`, which panics (index out of range) on an empty array. -/
def ReadSamples (s : ReadState α) (numSamples : Nat) :
    Except GoError (Option (Nat × ReadResult α)) :=
  if numSamples = 0 then .error .indexOutOfRange
  else .ok ((read s (numSamples * 4)).map (fun r => (r.out.length / 4, r)))

/-! ## Close (lines 77-86) and construction (lines 57-73) -/

/-- The cross-actor synchronisation state touched by `Close`: the
`closed` flag, whether the `writePermit` channel has been closed, and a
counter of `rwCond.Signal()` calls issued (a signal wakes a reader blocked
in `rwCond.Wait()`). -/
structure SyncState where
  closed : Bool
  permitClosed : Bool
  signals : Nat
deriving DecidableEq

/-- Go's `close(ch)` on a channel: panics if the channel is already
closed, otherwise marks it closed. -/
def closeChan (permitClosed : Bool) : Except GoError Bool :=
  if permitClosed then .error .closeOfClosedChannel else .ok true

/-- `Close` (lines 77-86): under the lock, if not yet closed, set
`closed`, close the `writePermit` channel (revoking the input permit) and
signal the condition variable; always return a `nil` error.  The
`Except` layer carries the channel-close panic that the `if !p.closed`
guard is there to prevent. -/
def Close (s : SyncState) : Except GoError (SyncState × Option GoError) :=
  if s.closed then .ok (s, none)
  else
    match closeChan s.permitClosed with
    | .error e => .error e
    | .ok pc => .ok ({ closed := true, permitClosed := pc, signals := s.signals + 1 }, none)

/-- The adapter struct as initialised by `NewPaulstretch` (lines 57-73).
The engine handle is whatever `C.paulstretch_create` returned; `none`
models a failed creation (e.g. a NULL handle) — the Go code stores it
without checking. -/
structure PaulstretchInit where
  ps : Option Nat
  writeBufLen : Nat
  writeOff : Nat
  readBufLen : Nat
  readOff : Nat
  closed : Bool
  permitTokens : Nat
deriving DecidableEq

/-- `NewPaulstretch` (lines 57-73): allocates both staging buffers at
`windowSize * 4` bytes, starts the read buffer fully drained
(`readOff = windowSize * 4`), stores the engine handle returned by
`C.paulstretch_create` unchecked, and deposits the single write permit.
`createResult` is the engine-creation outcome for the given
`(stretchFactor, windowSize)`. -/
def NewPaulstretch (createResult : Option Nat) (windowSize : Nat) : PaulstretchInit :=
  { ps := createResult
    writeBufLen := windowSize * 4
    writeOff := 0
    readBufLen := windowSize * 4
    readOff := windowSize * 4
    closed := false
    permitTokens := 1 }

/-- The constructor's result as seen by the caller: `NewPaulstretch` has
no error return and line 72 returns `&p` unconditionally, so the returned
pointer is never nil — modelled as an `Option` that is always `some`. -/
def NewPaulstretchPtr (createResult : Option Nat) (windowSize : Nat) :
    Option PaulstretchInit :=
  some (NewPaulstretch createResult windowSize)

/-- `OptimalBufferSize` (lines 211-213): `len(p.readBuf) / 4`. -/
def OptimalBufferSize (p : PaulstretchInit) : Nat :=
  p.readBufLen / 4

/-! ## Writer/reader synchronisation as a transition system

The deadlock-avoidance handshake (Write lines 115-123, Read lines
162-177, Close lines 77-86) is modelled as a labelled transition system
over one writer executing a `Write` call of `m` windows, one reader
executing a `Read` call that needs a new engine window, and an external
`Close` caller.  Every region the Go code executes while holding
`rwCond.L` is a single atomic transition (no other actor can interleave
with a critical section), so the mutex itself does not appear in the
configuration; `rwCond.Wait` ends one atomic step (it releases the lock)
and a `Signal` moves a waiting reader back to its re-check step (the
wake reacquires the lock and re-runs the availability check). -/

/-- Writer program counter inside the `Write` loop:
`recv` = blocked at `<-p.writePermit` (line 115);
`crit` = holds a received permit, about to run the locked region of lines
116-123 (closed re-check, submit, signal) atomically;
`done` = the call returned normally; `eof` = the call returned `io.EOF`
after observing `closed` at line 117. -/
inductive WriterPC
  | recv
  | crit
  | done
  | eof
deriving DecidableEq

/-- Reader program counter inside the `Read` fetch loop:
`run` = about to run the locked region of lines 162-174 atomically
(try `paulstretch_read`; if unavailable: return EOF when closed, else
offer a permit and wait);
`wait` = blocked in `rwCond.Wait()` (line 175);
`got` = a window became available, the call returns it;
`eof` = the call returned `io.EOF` (line 168). -/
inductive ReaderPC
  | run
  | wait
  | got
  | eof
deriving DecidableEq

/-- A configuration of the writer/reader/close system.
`m` counts the windows the writer still has to submit; `tokens` is
whether a permit sits in the 1-buffered `writePermit` channel;
`permitClosed` is whether that channel has been closed; `subs` counts the
windows submitted to the engine so far. -/
structure Config where
  wpc : WriterPC
  rpc : ReaderPC
  m : Nat
  tokens : Bool
  permitClosed : Bool
  closed : Bool
  subs : Nat
deriving DecidableEq

/-- `rwCond.Signal()`: wakes the reader if it is blocked in `Wait`
(sending it back to re-check availability under the lock), and is lost
otherwise. -/
def wakeReader (r : ReaderPC) : ReaderPC :=
  match r with
  | .wait => .run
  | r => r

/-- One transition of the writer/reader/close system.  `avail n` tells
whether `paulstretch_read` reports an output window available after `n`
submissions (the engine's internals are opaque, so it is an arbitrary
parameter).
* `wRecvToken`/`wRecvClosed`: line 115, `<-p.writePermit` completes by
  consuming the buffered token, or immediately because the channel was
  closed by `Close`;
* `wCritClosed`: lines 116-120, the locked re-check finds `closed` and
  the call returns `io.EOF`;
* `wCritSubmit`: lines 121-124, `paulstretch_write` then
  `rwCond.Signal()`, one more window accounted, loop to the next window
  (or return when none remain);
* `rRunAvail`: lines 163-164 and 176, `paulstretch_read` succeeds;
* `rRunClosed`: lines 166-169, no window and `closed` set: return EOF;
* `rRunWait`: lines 170-175, no window, not closed: the `select` puts a
  permit in `writePermit` if none is buffered (a no-op if one is), then
  `rwCond.Wait()`;
* `closeStep`: lines 78-84, an external `Close` sets `closed`, closes
  `writePermit` and signals the reader; a second `Close` is a no-op, so
  only the `closed = false` case changes state. -/
inductive Step (avail : Nat → Bool) : Config → Config → Prop
  | wRecvToken (c : Config) :
      c.wpc = .recv → c.tokens = true →
      Step avail c { c with wpc := .crit, tokens := false }
  | wRecvClosed (c : Config) :
      c.wpc = .recv → c.tokens = false → c.permitClosed = true →
      Step avail c { c with wpc := .crit }
  | wCritClosed (c : Config) :
      c.wpc = .crit → c.closed = true →
      Step avail c { c with wpc := .eof }
  | wCritSubmit (c : Config) :
      c.wpc = .crit → c.closed = false →
      Step avail c { c with
        wpc := if c.m ≤ 1 then .done else .recv,
        m := c.m - 1,
        subs := c.subs + 1,
        rpc := wakeReader c.rpc }
  | rRunAvail (c : Config) :
      c.rpc = .run → avail c.subs = true →
      Step avail c { c with rpc := .got }
  | rRunClosed (c : Config) :
      c.rpc = .run → avail c.subs = false → c.closed = true →
      Step avail c { c with rpc := .eof }
  | rRunWait (c : Config) :
      c.rpc = .run → avail c.subs = false → c.closed = false →
      Step avail c { c with tokens := true, rpc := .wait }
  | closeStep (c : Config) :
      c.closed = false →
      Step avail c { c with closed := true, permitClosed := true, rpc := wakeReader c.rpc }

/-- The initial configuration: a writer about to submit `m ≥ 1` windows,
a reader entering its fetch loop, the single permit deposited at
construction (line 68), nothing closed, nothing submitted. -/
def initConfig (m : Nat) : Config :=
  { wpc := .recv, rpc := .run, m := m, tokens := true,
    permitClosed := false, closed := false, subs := 0 }

/-- Configurations reachable from `initConfig m` by `Step avail`. -/
inductive Reachable (avail : Nat → Bool) (m : Nat) : Config → Prop
  | init : Reachable avail m (initConfig m)
  | step {c c' : Config} : Reachable avail m c → Step avail c c' →
      Reachable avail m c'

/-! ## Write-side lemmas -/

theorem writeGo_zero (cap : Nat) (closeAt : Option Nat) (p d : List α) :
    writeGo cap 0 closeAt p d = ⟨d.length, p ++ d, [], false⟩ := rfl

theorem writeGo_noloop (cap fuel : Nat) (closeAt : Option Nat) (p d : List α)
    (hcond : p.length + d.length < cap) :
    writeGo cap (fuel + 1) closeAt p d = ⟨d.length, p ++ d, [], false⟩ := by
  rw [writeGo, if_neg (by omega)]

theorem writeGo_loop_none (cap fuel : Nat) (p d : List α)
    (hcond : cap ≤ p.length + d.length) (hp : p.length ≤ cap) :
    writeGo cap (fuel + 1) none p d =
      { n := (cap - p.length) + (writeGo cap fuel none [] (d.drop (cap - p.length))).n,
        pending := (writeGo cap fuel none [] (d.drop (cap - p.length))).pending,
        submitted := (p ++ d).take cap
          :: (writeGo cap fuel none [] (d.drop (cap - p.length))).submitted,
        eof := (writeGo cap fuel none [] (d.drop (cap - p.length))).eof } := by
  rw [writeGo, if_pos hcond]
  by_cases h0 : p.length = 0
  · have hnil : p = [] := List.length_eq_zero.mp h0
    subst hnil
    simp
  · have hwin : p ++ d.take (cap - p.length) = (p ++ d).take cap := by
      rw [List.take_append_eq_append_take, List.take_of_length_le hp]
    simp [h0, hwin]

theorem writeGo_loop_close_zero (cap fuel : Nat) (p d : List α)
    (hcond : cap ≤ p.length + d.length) :
    writeGo cap (fuel + 1) (some 0) p d = ⟨0, [], [], true⟩ := by
  rw [writeGo, if_pos hcond]
  by_cases h0 : p.length = 0
  · have hnil : p = [] := List.length_eq_zero.mp h0
    subst hnil
    simp
  · simp [h0]

theorem writeGo_loop_close_succ (cap fuel j : Nat) (p d : List α)
    (hcond : cap ≤ p.length + d.length) (hp : p.length ≤ cap) :
    writeGo cap (fuel + 1) (some (j + 1)) p d =
      { n := (cap - p.length) + (writeGo cap fuel (some j) [] (d.drop (cap - p.length))).n,
        pending := (writeGo cap fuel (some j) [] (d.drop (cap - p.length))).pending,
        submitted := (p ++ d).take cap
          :: (writeGo cap fuel (some j) [] (d.drop (cap - p.length))).submitted,
        eof := (writeGo cap fuel (some j) [] (d.drop (cap - p.length))).eof } := by
  rw [writeGo, if_pos hcond]
  by_cases h0 : p.length = 0
  · have hnil : p = [] := List.length_eq_zero.mp h0
    subst hnil
    simp
  · have hwin : p ++ d.take (cap - p.length) = (p ++ d).take cap := by
      rw [List.take_append_eq_append_take, List.take_of_length_le hp]
    simp [h0, hwin]

/-- Functional specification of the uninterrupted `Write` loop: it
accepts every byte, returns no EOF, the submitted windows followed by the
new staging prefix reassemble exactly the old staging prefix followed by
the input, every submitted window has exactly `cap` bytes, and the new
staging prefix is a strict partial window. -/
theorem writeGo_none_spec (cap : Nat) (hcap : 0 < cap) :
    ∀ (fuel : Nat) (p d : List α), p.length < cap →
      p.length + d.length ≤ fuel * cap →
      (writeGo cap fuel none p d).n = d.length ∧
      (writeGo cap fuel none p d).eof = false ∧
      (writeGo cap fuel none p d).submitted.flatten ++ (writeGo cap fuel none p d).pending
        = p ++ d ∧
      (writeGo cap fuel none p d).pending.length < cap ∧
      ∀ w ∈ (writeGo cap fuel none p d).submitted, w.length = cap := by
  intro fuel
  induction fuel with
  | zero =>
    intro p d hp hlen
    have hp0 : p = [] := List.length_eq_zero.mp (by omega)
    have hd0 : d = [] := List.length_eq_zero.mp (by omega)
    subst hp0; subst hd0
    simp [writeGo_zero, hcap]
  | succ fuel ih =>
    intro p d hp hlen
    by_cases hcond : cap ≤ p.length + d.length
    · have hc_le : cap - p.length ≤ d.length := by omega
      have hdrop : (d.drop (cap - p.length)).length = d.length - (cap - p.length) :=
        List.length_drop _ _
      have hsm : (fuel + 1) * cap = fuel * cap + cap := Nat.succ_mul fuel cap
      have hrec := ih [] (d.drop (cap - p.length)) (by simpa using hcap)
        (by rw [hdrop]; simp only [List.length_nil, Nat.zero_add]; omega)
      rw [writeGo_loop_none cap fuel p d hcond (le_of_lt hp)]
      obtain ⟨hn, heof, hflat, hpend, hwins⟩ := hrec
      have hdropeq : (p ++ d).drop cap = d.drop (cap - p.length) := by
        rw [List.drop_append_eq_append_drop, List.drop_eq_nil_of_le (le_of_lt hp),
          List.nil_append]
      refine ⟨?_, heof, ?_, hpend, ?_⟩
      · simp only [hn, hdrop]; omega
      · simp only [List.flatten_cons, List.append_assoc, hflat, List.nil_append]
        rw [← hdropeq, List.take_append_drop]
      · intro w hw
        rcases List.mem_cons.mp hw with hw | hw
        · subst hw
          rw [List.length_take, List.length_append]
          omega
        · exact hwins w hw
    · rw [writeGo_noloop cap fuel none p d (by omega)]
      refine ⟨rfl, rfl, by simp, by simp; omega, by simp⟩

theorem Write_none_spec (cap : Nat) (hcap : 0 < cap) (p d : List α) (hp : p.length < cap) :
    (Write cap false none p d).n = d.length ∧
    (Write cap false none p d).eof = false ∧
    (Write cap false none p d).submitted.flatten ++ (Write cap false none p d).pending
      = p ++ d ∧
    (Write cap false none p d).pending.length < cap ∧
    ∀ w ∈ (Write cap false none p d).submitted, w.length = cap := by
  have hfuel : p.length + d.length ≤ (p.length + d.length) * cap := by
    have h1 := Nat.mul_le_mul_left (p.length + d.length) hcap
    simpa using h1
  have h := writeGo_none_spec cap hcap (p.length + d.length) p d hp hfuel
  simpa [Write] using h

theorem writeCalls_spec (cap : Nat) (hcap : 0 < cap) :
    ∀ (ds : List (List α)) (p : List α), p.length < cap →
      (writeCalls cap p ds).2.flatten ++ (writeCalls cap p ds).1 = p ++ ds.flatten ∧
      (writeCalls cap p ds).1.length < cap ∧
      ∀ w ∈ (writeCalls cap p ds).2, w.length = cap := by
  intro ds
  induction ds with
  | nil =>
    intro p hp
    refine ⟨by simp [writeCalls], by simpa [writeCalls] using hp, by simp [writeCalls]⟩
  | cons d ds ih =>
    intro p hp
    obtain ⟨h1, h2, h3, h4, h5⟩ := Write_none_spec cap hcap p d hp
    obtain ⟨g1, g2, g3⟩ := ih (Write cap false none p d).pending h4
    refine ⟨?_, by simpa [writeCalls] using g2, ?_⟩
    · show ((Write cap false none p d).submitted
          ++ (writeCalls cap (Write cap false none p d).pending ds).2).flatten
          ++ (writeCalls cap (Write cap false none p d).pending ds).1
          = p ++ (d :: ds).flatten
      rw [List.flatten_append, List.append_assoc, g1, ← List.append_assoc, h3,
        List.flatten_cons, List.append_assoc]
    · intro w hw
      rcases List.mem_append.mp (by simpa [writeCalls] using hw) with hw | hw
      · exact h5 w hw
      · exact g3 w hw

theorem flatten_length_of_blocks (cap : Nat) :
    ∀ ws : List (List α), (∀ w ∈ ws, w.length = cap) →
      ws.flatten.length = ws.length * cap := by
  intro ws
  induction ws with
  | nil => intro _; simp
  | cons w ws ih =>
    intro h
    have hw : w.length = cap := h w (List.mem_cons_self w ws)
    have ihh := ih (fun x hx => h x (List.mem_cons_of_mem _ hx))
    simp only [List.flatten_cons, List.length_append, hw, ihh, List.length_cons,
      Nat.succ_mul]
    omega

theorem blocks_eq_map_slices (cap : Nat) :
    ∀ ws : List (List α), (∀ w ∈ ws, w.length = cap) →
      ws = (List.range ws.length).map
        (fun i => (ws.flatten.drop (i * cap)).take cap) := by
  intro ws
  induction ws with
  | nil => intro _; simp
  | cons w ws ih =>
    intro h
    have hw : w.length = cap := h w (List.mem_cons_self w ws)
    have ihh := ih (fun x hx => h x (List.mem_cons_of_mem _ hx))
    rw [List.length_cons, List.range_succ_eq_map, List.map_cons, List.map_map]
    have hhead : ((w :: ws).flatten.drop (0 * cap)).take cap = w := by
      rw [Nat.zero_mul, List.drop_zero, List.flatten_cons,
        List.take_append_eq_append_take, List.take_of_length_le (le_of_eq hw), hw,
        Nat.sub_self, List.take_zero, List.append_nil]
    rw [hhead]
    congr 1
    conv_lhs => rw [ihh]
    apply List.map_congr_left
    intro i hi
    show (ws.flatten.drop (i * cap)).take cap
      = (((w :: ws).flatten).drop ((i + 1) * cap)).take cap
    have harith : (i + 1) * cap - w.length = i * cap := by
      rw [hw, Nat.succ_mul]; omega
    have hge : w.length ≤ (i + 1) * cap := by
      rw [hw, Nat.succ_mul]; omega
    rw [List.flatten_cons, List.drop_append_eq_append_drop,
      List.drop_eq_nil_of_le hge, List.nil_append, harith]

/-- C1: writing a total of exactly `k` windows of bytes through any
sequence of `Write` calls on a fresh, never-closed adapter submits
exactly `k` windows to the engine, in submission order, and the `i`-th
submitted window is byte-for-byte the `i`-th window-sized slice of the
concatenated input.  `cap = windowSamples * 4` is the window byte size,
so `ds.flatten.length = k * cap` says the calls total exactly
`k * windowSamples` samples. -/
theorem write_submits_exact_windows (cap k : Nat) (hcap : 0 < cap)
    (ds : List (List α)) (h : ds.flatten.length = k * cap) :
    (writeCalls cap [] ds).2.length = k ∧
    (writeCalls cap [] ds).2 = (List.range k).map
      (fun i => (ds.flatten.drop (i * cap)).take cap) := by
  obtain ⟨h1, h2, h3⟩ := writeCalls_spec cap hcap ds [] (by simpa using hcap)
  have hflen : (writeCalls cap [] ds).2.flatten.length
      = (writeCalls cap [] ds).2.length * cap :=
    flatten_length_of_blocks cap _ h3
  have hlen : (writeCalls cap [] ds).2.length * cap + (writeCalls cap [] ds).1.length
      = k * cap := by
    have hc := congrArg List.length h1
    rw [List.length_append, List.nil_append, hflen, h] at hc
    exact hc
  have hnotlt : ¬ (writeCalls cap [] ds).2.length < k := by
    intro hlt
    have hmul : ((writeCalls cap [] ds).2.length + 1) * cap ≤ k * cap :=
      Nat.mul_le_mul_right cap hlt
    rw [Nat.succ_mul] at hmul
    omega
  have hnotgt : ¬ k < (writeCalls cap [] ds).2.length := by
    intro hlt
    have hmul : (k + 1) * cap ≤ (writeCalls cap [] ds).2.length * cap :=
      Nat.mul_le_mul_right cap hlt
    rw [Nat.succ_mul] at hmul
    omega
  have hk : (writeCalls cap [] ds).2.length = k := by omega
  have hpend : (writeCalls cap [] ds).1 = [] := by
    rw [← hk] at hlen
    exact List.length_eq_zero.mp (by omega)
  have hflat : (writeCalls cap [] ds).2.flatten = ds.flatten := by
    rw [hpend, List.append_nil, List.nil_append] at h1
    exact h1
  refine ⟨hk, ?_⟩
  have hb := blocks_eq_map_slices cap (writeCalls cap [] ds).2 h3
  rw [hflat, hk] at hb
  exact hb

/-- Witness for C1 at `cap = 4`, `k = 2`, input chunked as 2+4+2 bytes. -/
theorem write_submits_exact_windows_witness :
    (writeCalls 4 ([] : List Nat) [[0, 1], [2, 3, 4, 5], [6, 7]]).2.length = 2 ∧
    (writeCalls 4 ([] : List Nat) [[0, 1], [2, 3, 4, 5], [6, 7]]).2
      = (List.range 2).map
        (fun i => ((([[0, 1], [2, 3, 4, 5], [6, 7]] : List (List Nat)).flatten.drop
          (i * 4)).take 4)) :=
  write_submits_exact_windows 4 2 (by decide) [[0, 1], [2, 3, 4, 5], [6, 7]] (by decide)

/-- C7: a `Write` call made after `Close` has taken effect returns 0
bytes accepted together with `io.EOF` (line 93-94), submits nothing to
the engine, leaves the input staging state untouched, and — being the
very first statement of the function — never blocks. -/
theorem write_after_close_returns_eof (cap : Nat) (closeAt : Option Nat)
    (pending data : List α) :
    Write cap true closeAt pending data
      = ⟨0, pending, [], true⟩ := rfl

theorem writeGo_close_spec (cap : Nat) (hcap : 0 < cap) :
    ∀ (fuel j : Nat) (p d : List α), p.length < cap →
      j < (writeGo cap fuel none p d).submitted.length →
      writeGo cap fuel (some j) p d
        = ⟨j * cap - p.length, [],
           (writeGo cap fuel none p d).submitted.take j, true⟩ := by
  intro fuel
  induction fuel with
  | zero =>
    intro j p d hp hj
    rw [writeGo_zero] at hj
    simp at hj
  | succ fuel ih =>
    intro j p d hp hj
    by_cases hcond : cap ≤ p.length + d.length
    · cases j with
      | zero =>
        rw [writeGo_loop_close_zero cap fuel p d hcond]
        simp
      | succ j =>
        rw [writeGo_loop_none cap fuel p d hcond (le_of_lt hp)] at hj
        simp only [List.length_cons] at hj
        have hj' : j < (writeGo cap fuel none [] (d.drop (cap - p.length))).submitted.length := by
          omega
        rw [writeGo_loop_close_succ cap fuel j p d hcond (le_of_lt hp),
          ih j [] (d.drop (cap - p.length)) (by simpa using hcap) hj',
          writeGo_loop_none cap fuel p d hcond (le_of_lt hp)]
        simp only [List.length_nil, Nat.sub_zero, List.take_succ_cons]
        congr 1
        rw [Nat.succ_mul]
        omega
    · rw [writeGo_noloop cap fuel none p d (by omega)] at hj
      simp at hj

theorem flatten_take_blocks (cap : Nat) :
    ∀ (ws : List (List α)) (j : Nat), (∀ w ∈ ws, w.length = cap) →
      (ws.take j).flatten = ws.flatten.take (j * cap) := by
  intro ws
  induction ws with
  | nil => intro j _; simp
  | cons w ws ih =>
    intro j h
    have hw : w.length = cap := h w (List.mem_cons_self w ws)
    have ihh := fun j => ih j (fun x hx => h x (List.mem_cons_of_mem _ hx))
    cases j with
    | zero => simp
    | succ j =>
      rw [List.take_succ_cons, List.flatten_cons, List.flatten_cons,
        List.take_append_eq_append_take, ihh j]
      have h1 : (j + 1) * cap - w.length = j * cap := by
        rw [hw, Nat.succ_mul]; omega
      have h2 : w.length ≤ (j + 1) * cap := by
        rw [hw, Nat.succ_mul]; omega
      rw [h1, List.take_of_length_le h2]

/-- C5: when a concurrent `Close` lands between a `Write` call's window
submissions (the locked re-check at lines 117-120 fires before the `j`-th
submission of the call), the call returns `io.EOF` together with exactly
the byte count accepted so far: the first `j` windows of the
uninterrupted run were submitted, in order; their bytes are the
previously staged prefix plus exactly the first `n` bytes of this call's
data (so this call's count `n` never re-counts the staged bytes already
counted by an earlier call, and every byte it counts was submitted). -/
theorem write_close_interrupt_reports_accepted (cap j : Nat) (hcap : 0 < cap)
    (p d : List α) (hp : p.length < cap)
    (hj : j < (Write cap false none p d).submitted.length) :
    Write cap false (some j) p d
      = ⟨j * cap - p.length, [], (Write cap false none p d).submitted.take j, true⟩ ∧
    ((Write cap false none p d).submitted.take j).flatten
      = (p ++ d).take (j * cap) ∧
    (1 ≤ j → (Write cap false (some j) p d).n + p.length = j * cap) := by
  obtain ⟨h1, h2, h3, h4, h5⟩ := Write_none_spec cap hcap p d hp
  have hmain : Write cap false (some j) p d
      = ⟨j * cap - p.length, [], (Write cap false none p d).submitted.take j, true⟩ := by
    have := writeGo_close_spec cap hcap (p.length + d.length) j p d hp
      (by simpa [Write] using hj)
    simpa [Write] using this
  have hflat : ((Write cap false none p d).submitted.take j).flatten
      = (p ++ d).take (j * cap) := by
    rw [flatten_take_blocks cap _ j h5]
    have hjlen : j * cap ≤ (Write cap false none p d).submitted.flatten.length := by
      rw [flatten_length_of_blocks cap _ h5]
      exact Nat.mul_le_mul_right cap (le_of_lt hj)
    rw [← h3, List.take_append_eq_append_take, Nat.sub_eq_zero_of_le hjlen,
      List.take_zero, List.append_nil]
  refine ⟨hmain, hflat, ?_⟩
  intro hj1
  rw [hmain]
  show j * cap - p.length + p.length = j * cap
  have : cap ≤ j * cap := by
    calc cap = 1 * cap := (Nat.one_mul cap).symm
    _ ≤ j * cap := Nat.mul_le_mul_right cap hj1
  omega

/-- Witness for C5 at `cap = 4`, two staged bytes, interruption before
the third of three windows. -/
theorem write_close_interrupt_witness :
    Write 4 false (some 2) [9, 9] [0, 1, 2, 3, 4, 5, 6, 7, 8, 9]
      = ⟨6, [],
         (Write 4 false none ([9, 9] : List Nat)
           [0, 1, 2, 3, 4, 5, 6, 7, 8, 9]).submitted.take 2, true⟩ ∧
    ((Write 4 false none ([9, 9] : List Nat)
        [0, 1, 2, 3, 4, 5, 6, 7, 8, 9]).submitted.take 2).flatten
      = (([9, 9] : List Nat) ++ [0, 1, 2, 3, 4, 5, 6, 7, 8, 9]).take (2 * 4) ∧
    (1 ≤ 2 → (Write 4 false (some 2) ([9, 9] : List Nat)
        [0, 1, 2, 3, 4, 5, 6, 7, 8, 9]).n + 2 = 2 * 4) := by
  have h := write_close_interrupt_reports_accepted 4 2 (by decide)
    ([9, 9] : List Nat) [0, 1, 2, 3, 4, 5, 6, 7, 8, 9] (by decide) (by decide)
  exact ⟨h.1, h.2.1, h.2.2⟩

/-! ## Read-side lemmas -/

theorem take_append_drop_length (l : List α) (k : Nat) :
    l.take k ++ l.drop (l.take k).length = l := by
  rcases Nat.le_total k l.length with h | h
  · rw [List.length_take, Nat.min_eq_left h, List.take_append_drop]
  · rw [List.take_of_length_le h, List.drop_length, List.append_nil]

theorem read_staged (s : ReadState α) (k : Nat) (h1 : s.readOff < s.readBuf.length) :
    read s k = some ⟨(s.readBuf.drop s.readOff).take k, false,
      { s with readOff := s.readOff + ((s.readBuf.drop s.readOff).take k).length }⟩ := by
  simp only [read]
  rw [if_pos h1]

theorem read_zero_dest (s : ReadState α) (h1 : ¬ s.readOff < s.readBuf.length) :
    read s 0 = some ⟨[], false, s⟩ := by
  simp [read, h1]

theorem read_eof (s : ReadState α) (k : Nat) (h1 : ¬ s.readOff < s.readBuf.length)
    (hk : k ≠ 0) (hq : s.engineOut = []) (hc : s.closed = true) :
    read s k = some ⟨[], true, s⟩ := by
  simp [read, h1, hk, hq, hc]

theorem read_block (s : ReadState α) (k : Nat) (h1 : ¬ s.readOff < s.readBuf.length)
    (hk : k ≠ 0) (hq : s.engineOut = []) (hc : s.closed = false) :
    read s k = none := by
  simp [read, h1, hk, hq, hc]

theorem read_fetch_small (s : ReadState α) (k : Nat) (w : List α) (ws : List (List α))
    (h1 : ¬ s.readOff < s.readBuf.length) (hk : k ≠ 0) (hq : s.engineOut = w :: ws)
    (h2 : min k s.readBuf.length < s.readBuf.length) :
    read s k = some ⟨w.take (min k s.readBuf.length), false,
      { s with
        readBuf := s.readBuf.take (min k s.readBuf.length)
          ++ (w.drop (min k s.readBuf.length)).take
            (s.readBuf.length - min k s.readBuf.length),
        readOff := min k s.readBuf.length,
        engineOut := ws }⟩ := by
  simp only [read]
  rw [if_neg h1, if_neg hk, hq]
  simp only [if_pos h2]

theorem read_fetch_full (s : ReadState α) (k : Nat) (w : List α) (ws : List (List α))
    (h1 : ¬ s.readOff < s.readBuf.length) (hk : k ≠ 0) (hq : s.engineOut = w :: ws)
    (h2 : ¬ min k s.readBuf.length < s.readBuf.length) :
    read s k = some ⟨w.take (min k s.readBuf.length), false,
      { s with engineOut := ws }⟩ := by
  simp only [read]
  rw [if_neg h1, if_neg hk, hq]
  simp only [if_neg h2]

/-- Functional specification of one `Read` call: the returned bytes are
removed from the front of the reader's remaining byte stream, state
well-formedness and the `closed` flag are preserved, `io.EOF` is returned
only with zero bytes on a closed and fully drained adapter, and any
non-empty read on a non-drained adapter returns at least one byte. -/
theorem read_spec (cap : Nat) (hcap : 0 < cap) (s : ReadState α) (k : Nat)
    (hwf : ReadWF cap s) (r : ReadResult α) (h : read s k = some r) :
    r.out ++ remaining r.state = remaining s ∧
    ReadWF cap r.state ∧
    r.state.closed = s.closed ∧
    (r.eof = true → r.out = [] ∧ remaining s = [] ∧ s.closed = true) ∧
    (1 ≤ k → remaining s ≠ [] → r.out ≠ []) := by
  obtain ⟨hbuf, hoff, hwins⟩ := hwf
  by_cases h1 : s.readOff < s.readBuf.length
  · rw [read_staged s k h1] at h
    obtain rfl := (Option.some.inj h).symm
    refine ⟨?_, ⟨hbuf, ?_, hwins⟩, rfl, ?_, ?_⟩
    · show (s.readBuf.drop s.readOff).take k
        ++ (s.readBuf.drop (s.readOff + ((s.readBuf.drop s.readOff).take k).length)
          ++ s.engineOut.flatten)
        = s.readBuf.drop s.readOff ++ s.engineOut.flatten
      rw [← List.append_assoc]
      congr 1
      have hdd : s.readBuf.drop (s.readOff + ((s.readBuf.drop s.readOff).take k).length)
          = (s.readBuf.drop s.readOff).drop ((s.readBuf.drop s.readOff).take k).length := by
        rw [List.drop_drop, Nat.add_comm]
      rw [hdd, take_append_drop_length]
    · show s.readOff + ((s.readBuf.drop s.readOff).take k).length ≤ cap
      simp only [List.length_take, List.length_drop]
      omega
    · intro hfalse
      simp at hfalse
    · intro hk hrem hnil
      have hlen : 1 ≤ ((s.readBuf.drop s.readOff).take k).length := by
        simp only [List.length_take, List.length_drop]
        omega
      have hnil' : (s.readBuf.drop s.readOff).take k = ([] : List α) := hnil
      rw [hnil'] at hlen
      simp at hlen
  · by_cases hk : k = 0
    · subst hk
      rw [read_zero_dest s h1] at h
      obtain rfl := (Option.some.inj h).symm
      refine ⟨by simp, ⟨hbuf, hoff, hwins⟩, rfl, ?_, ?_⟩
      · intro hfalse
        simp at hfalse
      · intro hfalse
        omega
    · have hdropnil : s.readBuf.drop s.readOff = [] :=
        List.drop_eq_nil_of_le (by omega)
      cases hq : s.engineOut with
      | nil =>
        by_cases hc : s.closed = true
        · rw [read_eof s k h1 hk hq hc] at h
          obtain rfl := (Option.some.inj h).symm
          have hremnil : remaining s = [] := by
            simp [remaining, hdropnil, hq]
          refine ⟨by simp [hremnil], ⟨hbuf, hoff, hwins⟩, rfl, ?_, ?_⟩
          · intro _
            exact ⟨rfl, hremnil, hc⟩
          · intro _ hrem
            exact absurd hremnil hrem
        · rw [read_block s k h1 hk hq (by simpa using hc)] at h
          cases h
      | cons w ws =>
        have hw : w.length = cap := hwins w (by rw [hq]; exact List.mem_cons_self w ws)
        have hwsrest : ∀ x ∈ ws, x.length = cap := fun x hx =>
          hwins x (by rw [hq]; exact List.mem_cons_of_mem _ hx)
        have hrem : remaining s = w ++ ws.flatten := by
          simp [remaining, hdropnil, hq]
        have hminpos : 1 ≤ min k s.readBuf.length := by
          rw [hbuf]
          omega
        have houtpos : (w.take (min k s.readBuf.length)).length ≠ 0 := by
          rw [List.length_take, hw, hbuf]
          omega
        by_cases h2 : min k s.readBuf.length < s.readBuf.length
        · rw [read_fetch_small s k w ws h1 hk hq h2] at h
          obtain rfl := (Option.some.inj h).symm
          have hdw : (w.drop (min k s.readBuf.length)).length
              = cap - min k s.readBuf.length := by
            rw [List.length_drop, hw]
          refine ⟨?_, ⟨?_, ?_, hwsrest⟩, rfl, ?_, ?_⟩
          · show w.take (min k s.readBuf.length)
              ++ ((s.readBuf.take (min k s.readBuf.length)
                  ++ (w.drop (min k s.readBuf.length)).take
                    (s.readBuf.length - min k s.readBuf.length)).drop
                  (min k s.readBuf.length)
                ++ ws.flatten)
              = remaining s
            rw [hrem, List.drop_append_eq_append_drop]
            have htl : (s.readBuf.take (min k s.readBuf.length)).length
                = min k s.readBuf.length := by
              rw [List.length_take]
              omega
            rw [htl, Nat.sub_self, List.drop_zero]
            have hdnil : (s.readBuf.take (min k s.readBuf.length)).drop
                (min k s.readBuf.length) = [] :=
              List.drop_eq_nil_of_le (le_of_eq htl)
            rw [hdnil, List.nil_append]
            have htake : (w.drop (min k s.readBuf.length)).take
                (s.readBuf.length - min k s.readBuf.length)
                = w.drop (min k s.readBuf.length) :=
              List.take_of_length_le (by rw [hdw, hbuf])
            rw [htake, ← List.append_assoc, List.take_append_drop]
          · show (s.readBuf.take (min k s.readBuf.length)
                ++ (w.drop (min k s.readBuf.length)).take
                  (s.readBuf.length - min k s.readBuf.length)).length = cap
            rw [List.length_append, List.length_take, List.length_take, hdw]
            omega
          · show min k s.readBuf.length ≤ cap
            rw [hbuf] at h2 ⊢
            omega
          · intro hfalse
            simp at hfalse
          · intro _ _ hnil
            have hnil' : w.take (min k s.readBuf.length) = ([] : List α) := hnil
            rw [hnil'] at houtpos
            simp at houtpos
        · rw [read_fetch_full s k w ws h1 hk hq h2] at h
          obtain rfl := (Option.some.inj h).symm
          have hwtake : w.take (min k s.readBuf.length) = w := by
            apply List.take_of_length_le
            rw [hw, ← hbuf]
            omega
          refine ⟨?_, ⟨hbuf, hoff, hwsrest⟩, rfl, ?_, ?_⟩
          · show w.take (min k s.readBuf.length)
              ++ (s.readBuf.drop s.readOff ++ ws.flatten) = remaining s
            rw [hwtake, hrem, hdropnil, List.nil_append]
          · intro hfalse
            simp at hfalse
          · intro _ _ hnil
            have hnil' : w.take (min k s.readBuf.length) = ([] : List α) := hnil
            rw [hnil'] at houtpos
            simp at houtpos
/-- On a closed adapter a `Read` call always returns (the wait-loop body
is never entered because the `closed` check at line 166 precedes the
`Wait` at line 175). -/
theorem read_some_of_closed (s : ReadState α) (k : Nat) (hc : s.closed = true) :
    ∃ r, read s k = some r := by
  by_cases h1 : s.readOff < s.readBuf.length
  · exact ⟨_, read_staged s k h1⟩
  · by_cases hk : k = 0
    · subst hk
      exact ⟨_, read_zero_dest s h1⟩
    · cases hq : s.engineOut with
      | nil => exact ⟨_, read_eof s k h1 hk hq hc⟩
      | cons w ws =>
        by_cases h2 : min k s.readBuf.length < s.readBuf.length
        · exact ⟨_, read_fetch_small s k w ws h1 hk hq h2⟩
        · exact ⟨_, read_fetch_full s k w ws h1 hk hq h2⟩

theorem blocks_nil_of_flatten_nil (cap : Nat) (hcap : 0 < cap) (ws : List (List α))
    (hwins : ∀ w ∈ ws, w.length = cap) (h : ws.flatten = []) : ws = [] := by
  cases ws with
  | nil => rfl
  | cons w ws =>
    exfalso
    rw [List.flatten_cons] at h
    have hw := hwins w (List.mem_cons_self w ws)
    rw [(List.append_eq_nil.mp h).1] at hw
    simp at hw
    omega

theorem readMany_spec (cap : Nat) (hcap : 0 < cap) :
    ∀ (ks : List Nat) (s : ReadState α), ReadWF cap s → s.closed = true →
      (readMany s ks).1.flatten ++ remaining (readMany s ks).2 = remaining s ∧
      ((∀ i ∈ ks, 1 ≤ i) → (remaining s).length ≤ ks.length →
        remaining (readMany s ks).2 = []) := by
  intro ks
  induction ks with
  | nil =>
    intro s hwf hc
    refine ⟨by simp [readMany], ?_⟩
    intro _ hlen
    simp only [readMany]
    have h0 : (remaining s).length = 0 := by simpa using hlen
    exact List.length_eq_zero.mp h0
  | cons k ks ih =>
    intro s hwf hc
    obtain ⟨r, hr⟩ := read_some_of_closed s k hc
    obtain ⟨hstep, hwf', hcl', _heof, hprog⟩ := read_spec cap hcap s k hwf r hr
    have hc' : r.state.closed = true := by rw [hcl', hc]
    obtain ⟨ih1, ih2⟩ := ih r.state hwf' hc'
    have hunfold : readMany s (k :: ks)
        = (r.out :: (readMany r.state ks).1, (readMany r.state ks).2) := by
      simp [readMany, hr]
    rw [hunfold]
    constructor
    · show (r.out :: (readMany r.state ks).1).flatten
        ++ remaining (readMany r.state ks).2 = remaining s
      rw [List.flatten_cons, List.append_assoc, ih1, hstep]
    · intro hpos hlen
      apply ih2 (fun i hi => hpos i (List.mem_cons_of_mem _ hi))
      by_cases hremnil : remaining s = []
      · have hz : remaining r.state = [] := by
          have hst := hstep
          rw [hremnil] at hst
          exact (List.append_eq_nil.mp hst).2
        rw [hz]
        simp
      · have hout : r.out ≠ [] := hprog (hpos k (List.mem_cons_self k ks)) hremnil
        have hlen1 : 1 ≤ r.out.length := by
          cases hox : r.out with
          | nil => exact absurd hox hout
          | cons a l => simp
        have hlens : r.out.length + (remaining r.state).length
            = (remaining s).length := by
          rw [← List.length_append, hstep]
        simp only [List.length_cons] at hlen
        omega

/-- C2: for every sequence of output windows the engine emits and every
partition of the reader's demand into non-empty `Read` calls (enough of
them to drain the stream; stated on a closed adapter so that the driver
never blocks), the concatenation of the bytes returned by the calls is
exactly the concatenation of the emitted windows, in emission order.
The writer's chunking does not appear at all: only `engineOut`, the
emitted windows, determines the reassembled bytes. -/
theorem read_reassembles_engine_output (cap : Nat) (hcap : 0 < cap)
    (s : ReadState α) (hwf : ReadWF cap s) (hfresh : s.readOff = s.readBuf.length)
    (hclosed : s.closed = true)
    (ks : List Nat) (hpos : ∀ i ∈ ks, 1 ≤ i)
    (henough : s.engineOut.flatten.length ≤ ks.length) :
    (readMany s ks).1.flatten = s.engineOut.flatten := by
  have hremeq : remaining s = s.engineOut.flatten := by
    rw [remaining, hfresh, List.drop_length, List.nil_append]
  obtain ⟨h1, h2⟩ := readMany_spec cap hcap ks s hwf hclosed
  rw [h2 hpos (by rw [hremeq]; exact henough), List.append_nil] at h1
  rw [h1, hremeq]

/-- Witness for C2 at `cap = 4`, two emitted windows, demand partitioned
into read sizes 3,1,2,5,1,1,1,1. -/
theorem read_reassembles_engine_output_witness :
    (readMany (⟨[0, 0, 0, 0], 4, [[1, 2, 3, 4], [5, 6, 7, 8]], true⟩ : ReadState Nat)
        [3, 1, 2, 5, 1, 1, 1, 1]).1.flatten
      = (⟨[0, 0, 0, 0], 4, [[1, 2, 3, 4], [5, 6, 7, 8]], true⟩
          : ReadState Nat).engineOut.flatten :=
  read_reassembles_engine_output 4 (by decide)
    (⟨[0, 0, 0, 0], 4, [[1, 2, 3, 4], [5, 6, 7, 8]], true⟩ : ReadState Nat)
    ⟨by decide, by decide, by decide⟩ (by decide) (by decide)
    [3, 1, 2, 5, 1, 1, 1, 1] (by decide) (by decide)

/-- C6: after `Close` has taken effect, each `Read` call keeps returning
buffered output until the staging buffer and the engine's ready output
are both exhausted, then returns 0 bytes with `io.EOF`; it always
returns (never blocks, since the `closed` check precedes the wait); and
a `(0, io.EOF)` result only ever happens on a closed adapter whose
output is exhausted. -/
theorem read_after_close_drains_then_eof (cap : Nat) (hcap : 0 < cap)
    (s : ReadState α) (k : Nat) (hwf : ReadWF cap s) (hclosed : s.closed = true)
    (hk : 1 ≤ k) :
    (∃ r, read s k = some r) ∧
    (remaining s ≠ [] → ∀ r : ReadResult α, read s k = some r →
      r.out ≠ [] ∧ r.eof = false) ∧
    (remaining s = [] → read s k = some ⟨[], true, s⟩) ∧
    (∀ (s2 : ReadState α) (k2 : Nat) (r2 : ReadResult α), ReadWF cap s2 →
      read s2 k2 = some r2 → r2.eof = true →
      r2.out = [] ∧ s2.closed = true ∧ remaining s2 = []) := by
  refine ⟨read_some_of_closed s k hclosed, ?_, ?_, ?_⟩
  · intro hrem r hr
    obtain ⟨_hstep, _hwf', _hcl', heof, hprog⟩ := read_spec cap hcap s k hwf r hr
    refine ⟨hprog hk hrem, ?_⟩
    cases he : r.eof with
    | false => rfl
    | true => exact absurd (heof he).2.1 hrem
  · intro hrem
    obtain ⟨hbuf, hoff, hwins⟩ := hwf
    obtain ⟨hstaged, hq0⟩ := List.append_eq_nil.mp hrem
    have hq : s.engineOut = [] :=
      blocks_nil_of_flatten_nil cap hcap s.engineOut hwins hq0
    have h1 : ¬ s.readOff < s.readBuf.length := by
      have hle := List.drop_eq_nil_iff.mp hstaged
      omega
    exact read_eof s k h1 (by omega) hq hclosed
  · intro s2 k2 r2 hwf2 hr2 he2
    obtain ⟨_hstep, _hwf', _hcl', heof, _⟩ := read_spec cap hcap s2 k2 hwf2 r2 hr2
    obtain ⟨h1, h2, h3⟩ := heof he2
    exact ⟨h1, h3, h2⟩

/-- Witness for C6 at `cap = 4`: closed adapter with two staged bytes
left and an empty engine queue. -/
theorem read_after_close_drains_then_eof_witness :
    (∃ r, read (⟨[7, 8, 9, 9], 2, [], true⟩ : ReadState Nat) 1 = some r) ∧
    (remaining (⟨[7, 8, 9, 9], 2, [], true⟩ : ReadState Nat) ≠ [] →
      ∀ r : ReadResult Nat,
        read (⟨[7, 8, 9, 9], 2, [], true⟩ : ReadState Nat) 1 = some r →
        r.out ≠ [] ∧ r.eof = false) ∧
    (remaining (⟨[7, 8, 9, 9], 2, [], true⟩ : ReadState Nat) = [] →
      read (⟨[7, 8, 9, 9], 2, [], true⟩ : ReadState Nat) 1
        = some ⟨[], true, ⟨[7, 8, 9, 9], 2, [], true⟩⟩) ∧
    (∀ (s2 : ReadState Nat) (k2 : Nat) (r2 : ReadResult Nat), ReadWF 4 s2 →
      read s2 k2 = some r2 → r2.eof = true →
      r2.out = [] ∧ s2.closed = true ∧ remaining s2 = []) :=
  read_after_close_drains_then_eof 4 (by decide)
    (⟨[7, 8, 9, 9], 2, [], true⟩ : ReadState Nat) 1
    ⟨by decide, by decide, by decide⟩ (by decide) (by decide)

/-- C10: a single `Read` call returns at most one window's worth of
bytes (`cap = windowSamples * 4`): when staged output remains it copies
only from the staged window and touches no engine state, and otherwise a
non-empty destination causes exactly one window to be fetched from the
engine queue; so a `Read` with a destination larger than one window
returns a short count even when more output is queued. -/
theorem read_at_most_one_window (cap : Nat) (s : ReadState α) (k : Nat)
    (hwf : ReadWF cap s) (r : ReadResult α) (h : read s k = some r) :
    r.out.length ≤ cap ∧
    (s.readOff < s.readBuf.length →
      r.state.engineOut = s.engineOut ∧ r.out = (s.readBuf.drop s.readOff).take k) ∧
    (¬ s.readOff < s.readBuf.length → 1 ≤ k →
      r.state.engineOut = s.engineOut.tail) := by
  obtain ⟨hbuf, hoff, hwins⟩ := hwf
  by_cases h1 : s.readOff < s.readBuf.length
  · rw [read_staged s k h1] at h
    obtain rfl := (Option.some.inj h).symm
    refine ⟨?_, fun _ => ⟨rfl, rfl⟩, fun hn _ => absurd h1 hn⟩
    show ((s.readBuf.drop s.readOff).take k).length ≤ cap
    rw [List.length_take, List.length_drop]
    omega
  · by_cases hk : k = 0
    · subst hk
      rw [read_zero_dest s h1] at h
      obtain rfl := (Option.some.inj h).symm
      exact ⟨by simp, fun hp => absurd hp h1, fun _ hfalse => by omega⟩
    · cases hq : s.engineOut with
      | nil =>
        cases hc : s.closed with
        | false =>
          rw [read_block s k h1 hk hq hc] at h
          cases h
        | true =>
          rw [read_eof s k h1 hk hq hc] at h
          obtain rfl := (Option.some.inj h).symm
          exact ⟨by simp, fun hp => absurd hp h1, fun _ _ => hq⟩
      | cons w ws =>
        have hw : w.length = cap := hwins w (by rw [hq]; exact List.mem_cons_self w ws)
        have houtlen : (w.take (min k s.readBuf.length)).length ≤ cap := by
          rw [List.length_take, hw]
          omega
        by_cases h2 : min k s.readBuf.length < s.readBuf.length
        · rw [read_fetch_small s k w ws h1 hk hq h2] at h
          obtain rfl := (Option.some.inj h).symm
          exact ⟨houtlen, fun hp => absurd hp h1, fun _ _ => rfl⟩
        · rw [read_fetch_full s k w ws h1 hk hq h2] at h
          obtain rfl := (Option.some.inj h).symm
          exact ⟨houtlen, fun hp => absurd hp h1, fun _ _ => rfl⟩

/-- Witness for C10 at `cap = 4`: a `Read` with a 100-byte destination
on an adapter with two queued windows returns only the first window. -/
theorem read_at_most_one_window_witness :
    ([5, 6, 7, 8] : List Nat).length ≤ 4 ∧
    ((⟨[0, 0, 0, 0], 4, [[5, 6, 7, 8], [1, 1, 1, 1]], false⟩ : ReadState Nat).readOff
        < (⟨[0, 0, 0, 0], 4, [[5, 6, 7, 8], [1, 1, 1, 1]], false⟩
          : ReadState Nat).readBuf.length →
      ([[1, 1, 1, 1]] : List (List Nat)) = [[5, 6, 7, 8], [1, 1, 1, 1]] ∧
      ([5, 6, 7, 8] : List Nat) = (([0, 0, 0, 0] : List Nat).drop 4).take 100) ∧
    (¬ (⟨[0, 0, 0, 0], 4, [[5, 6, 7, 8], [1, 1, 1, 1]], false⟩
          : ReadState Nat).readOff
        < (⟨[0, 0, 0, 0], 4, [[5, 6, 7, 8], [1, 1, 1, 1]], false⟩
          : ReadState Nat).readBuf.length → 1 ≤ 100 →
      ([[1, 1, 1, 1]] : List (List Nat))
        = ([[5, 6, 7, 8], [1, 1, 1, 1]] : List (List Nat)).tail) :=
  read_at_most_one_window 4
    (⟨[0, 0, 0, 0], 4, [[5, 6, 7, 8], [1, 1, 1, 1]], false⟩ : ReadState Nat) 100
    ⟨by decide, by decide, by decide⟩
    (⟨[5, 6, 7, 8], false, ⟨[0, 0, 0, 0], 4, [[1, 1, 1, 1]], false⟩⟩ : ReadResult Nat)
    (by decide)

/-! ## Close, construction and sample-wrapper theorems -/

/-- C8: `Close` is idempotent: on a fresh (not yet closed) adapter the
first call sets `closed`, closes the `writePermit` channel (revoking the
input permit) and signals the blocked reader, returning a nil error; a
second call on the resulting state is a complete no-op — same state, no
channel-close panic, nil error again. -/
theorem close_idempotent (s : SyncState) (h1 : s.closed = false)
    (h2 : s.permitClosed = false) :
    Close s
      = .ok ({ closed := true, permitClosed := true, signals := s.signals + 1 }, none) ∧
    Close { closed := true, permitClosed := true, signals := s.signals + 1 }
      = .ok ({ closed := true, permitClosed := true, signals := s.signals + 1 }, none) := by
  constructor
  · simp [Close, closeChan, h1, h2]
  · simp [Close]

/-- Witness for C8 on the state of a freshly constructed adapter. -/
theorem close_idempotent_witness :
    Close ⟨false, false, 0⟩
      = .ok (({ closed := true, permitClosed := true, signals := 1 } : SyncState), none) ∧
    Close { closed := true, permitClosed := true, signals := 1 }
      = .ok (({ closed := true, permitClosed := true, signals := 1 } : SyncState), none) :=
  close_idempotent ⟨false, false, 0⟩ rfl rfl

/-- C9: a zero-length sample array passed to `WriteSamples` or
`ReadSamples` hits the `&samples[0]` index-out-of-range panic while the
slice header is built — a programming error, not a recoverable
condition: the call never produces a normal `(count, nil)` result. -/
theorem samples_wrappers_reject_empty (cap : Nat) (closed : Bool)
    (closeAt : Option Nat) (pending : List α) (s : ReadState α) :
    WriteSamples cap closed closeAt pending ([] : List (List α))
      = .error .indexOutOfRange ∧
    ReadSamples s 0 = .error .indexOutOfRange ∧
    (∀ v, WriteSamples cap closed closeAt pending ([] : List (List α)) ≠ .ok v) ∧
    (∀ v, ReadSamples s 0 ≠ .ok v) := by
  refine ⟨rfl, rfl, ?_, ?_⟩
  · intro v h
    simp [WriteSamples] at h
  · intro v h
    simp [ReadSamples] at h

/-- C4 counterexample: take parameters whose engine creation fails
(`createResult = none`, e.g. a NULL handle from `paulstretch_create`,
at `windowSize = 128`).  The claim says construction then fails and no
adapter instance is returned; but `NewPaulstretch` has no error return
and line 72 returns the instance unconditionally, so an adapter (with
the unusable handle stored unchecked) IS returned. -/
theorem new_paulstretch_cannot_fail_cex :
    NewPaulstretchPtr none 128 ≠ none ∧
    NewPaulstretchPtr none 128
      = some { ps := none, writeBufLen := 512, writeOff := 0, readBufLen := 512,
               readOff := 512, closed := false, permitTokens := 1 } := by
  refine ⟨?_, rfl⟩
  intro h
  simp [NewPaulstretchPtr] at h

/-- C4 amended: construction never fails.  For every engine-creation
outcome — including a failed creation — and every window size,
`NewPaulstretch` returns an adapter instance to the caller (never nil,
no error channel exists), with the engine handle stored unchecked, the
adapter open, and the advertised optimal buffer size equal to the window
size. -/
theorem new_paulstretch_always_returns_instance (createResult : Option Nat)
    (windowSize : Nat) :
    NewPaulstretchPtr createResult windowSize
      = some (NewPaulstretch createResult windowSize) ∧
    (NewPaulstretch createResult windowSize).ps = createResult ∧
    (NewPaulstretch createResult windowSize).closed = false ∧
    OptimalBufferSize (NewPaulstretch createResult windowSize) = windowSize := by
  refine ⟨rfl, rfl, rfl, ?_⟩
  show windowSize * 4 / 4 = windowSize
  omega

/-! ## Deadlock-freedom of the writer/reader handshake -/

theorem wakeReader_ne_wait (r : ReaderPC) : wakeReader r ≠ .wait := by
  cases r <;> simp [wakeReader]

/-- The handshake invariant is preserved by every transition: the permit
channel is closed exactly when the adapter is, and while the reader is
blocked in `Wait` the adapter is open and either a permit is buffered
(the reader re-issued it at line 172 before waiting) or the writer has
already consumed it and is inside its submit path. -/
theorem step_preserves_inv {avail : Nat → Bool} {c c' : Config}
    (h1 : c.permitClosed = c.closed)
    (h2 : c.rpc = .wait → c.closed = false ∧ (c.tokens = true ∨ c.wpc = .crit))
    (hstep : Step avail c c') :
    c'.permitClosed = c'.closed ∧
    (c'.rpc = .wait → c'.closed = false ∧ (c'.tokens = true ∨ c'.wpc = .crit)) := by
  cases hstep with
  | wRecvToken hw ht =>
    refine ⟨h1, ?_⟩
    intro hr
    obtain ⟨hc, _⟩ := h2 hr
    exact ⟨hc, Or.inr rfl⟩
  | wRecvClosed hw ht hp =>
    refine ⟨h1, ?_⟩
    intro hr
    obtain ⟨hc, _⟩ := h2 hr
    rw [h1, hc] at hp
    cases hp
  | wCritClosed hw hcl =>
    refine ⟨h1, ?_⟩
    intro hr
    obtain ⟨hc, _⟩ := h2 hr
    rw [hc] at hcl
    cases hcl
  | wCritSubmit hw hcl =>
    refine ⟨h1, ?_⟩
    intro hr
    exact absurd hr (wakeReader_ne_wait _)
  | rRunAvail hrp hav =>
    refine ⟨h1, ?_⟩
    intro hr
    cases hr
  | rRunClosed hrp hav hcl =>
    refine ⟨h1, ?_⟩
    intro hr
    cases hr
  | rRunWait hrp hav hcl =>
    refine ⟨h1, ?_⟩
    intro _
    exact ⟨hcl, Or.inl rfl⟩
  | closeStep hcl =>
    refine ⟨rfl, ?_⟩
    intro hr
    exact absurd hr (wakeReader_ne_wait _)

theorem inv_reachable {avail : Nat → Bool} {m : Nat} {c : Config}
    (h : Reachable avail m c) :
    c.permitClosed = c.closed ∧
    (c.rpc = .wait → c.closed = false ∧ (c.tokens = true ∨ c.wpc = .crit)) := by
  induction h with
  | init =>
    refine ⟨rfl, ?_⟩
    intro h
    simp [initConfig] at h
  | step _ hstep ih => exact step_preserves_inv ih.1 ih.2 hstep

/-- C3: the writer/reader pair never deadlocks.  In every reachable
configuration in which the reader is blocked in `Wait` with no output
available and the writer is blocked waiting for the input permit, the
permit the stalled reader re-issued (line 172) is in the channel, so the
writer's receive is enabled and moves it into its submit path; from any
reachable configuration with the writer in its submit path and the
reader blocked, the writer's submission fires and its `Signal` wakes the
reader; and while the stream is not closed a `Close` is always enabled
(and also wakes the reader), covering the caller-eventually-closes
proviso. -/
theorem no_writer_reader_deadlock (avail : Nat → Bool) (m : Nat) (c : Config)
    (hreach : Reachable avail m c) :
    (c.wpc = .recv → c.rpc = .wait →
      c.tokens = true ∧ ∃ c', Step avail c c' ∧ c'.wpc = .crit ∧ c'.rpc = .wait) ∧
    (c.wpc = .crit → c.rpc = .wait →
      ∃ c', Step avail c c' ∧ c'.rpc = .run ∧ c'.subs = c.subs + 1) ∧
    (c.closed = false → ∃ c', Step avail c c' ∧ c'.closed = true) := by
  obtain ⟨h1, h2⟩ := inv_reachable hreach
  refine ⟨?_, ?_, ?_⟩
  · intro hw hr
    obtain ⟨hc, hd⟩ := h2 hr
    have ht : c.tokens = true := by
      rcases hd with ht | hcrit
      · exact ht
      · rw [hw] at hcrit
        cases hcrit
    exact ⟨ht, _, Step.wRecvToken c hw ht, rfl, hr⟩
  · intro hw hr
    obtain ⟨hc, _⟩ := h2 hr
    refine ⟨_, Step.wCritSubmit c hw hc, ?_, rfl⟩
    show wakeReader c.rpc = .run
    rw [hr]
    rfl
  · intro hc
    exact ⟨_, Step.closeStep c hc, rfl⟩

/-- Witness for C3: a concrete reachable configuration (writer blocked on
the permit for its second window, reader blocked in `Wait` after
re-issuing the permit, engine never reporting output) in which the
blocked writer's receive is enabled. -/
theorem no_writer_reader_deadlock_witness :
    (⟨.recv, .wait, 2, true, false, false, 1⟩ : Config).tokens = true ∧
    ∃ c', Step (fun _ => false) (⟨.recv, .wait, 2, true, false, false, 1⟩ : Config) c'
      ∧ c'.wpc = .crit ∧ c'.rpc = .wait := by
  have h0 : Reachable (fun _ => false) 3 (initConfig 3) := Reachable.init
  have h1 := Reachable.step h0 (Step.wRecvToken _ rfl rfl)
  have h2 := Reachable.step h1 (Step.wCritSubmit _ rfl rfl)
  have h3 := Reachable.step h2 (Step.rRunWait _ rfl rfl rfl)
  have hreach : Reachable (fun _ => false) 3
      (⟨.recv, .wait, 2, true, false, false, 1⟩ : Config) := h3
  exact (no_writer_reader_deadlock (fun _ => false) 3 _ hreach).1 rfl rfl

end GoPaulstretch
